import Mathlib

/-!
Decimal renderer and gyroscope register protocol of `spi-mems-ours.c`.

A shallow embedding of `print_decimal`, `spi_init` and `main` of
`spi-libopencm3/spi-mems-ours.c` (STM32F429 discovery board, L3GD20
gyroscope on SPI5 with chip-select on PC1), followed by theorems about the
embedding.

Conventions.
* C `int` is the 32-bit two's-complement integer of the target: values are
  `Int`, and the one operation of `print_decimal` that can leave the range
  (`0 - num`) is wrapped with `wrap_int`.
* C `/` and `%` truncate toward zero: `Int.tdiv` and `Int.tmod`.
* `char buf[10]` is a map from indices to optional characters; a cell that
  was never written holds no value, and an access outside the array is a
  fault (`Fault.out_of_bounds`), as the C standard gives it no meaning.
* `float` is IEEE single precision: a product is the exact product rounded to
  24 significant binary digits, to nearest with ties to even (`f32_round`).
* The sensor is an arbitrary sequence `rx` of answers, one per `spi_read`.
-/

namespace SpiMems

/-! ## Machine integers -/

/-- Reduction of a mathematical integer to the 32-bit two's-complement `int`. -/
def wrap_int (x : Int) : Int := (x + 2147483648) % 4294967296 - 2147483648

/-- Conversion of an `int` to `char` (8 bits, unsigned on this target), as
a character. -/
def to_char (x : Int) : Char := Char.ofNat (x % 256).toNat

/-- Conversion to `uint8_t`. -/
def to_u8 (x : Nat) : Nat := x % 256

/-- Conversion to `uint16_t`. -/
def to_u16 (x : Nat) : Nat := x % 65536

/-- Conversion of an `int` to `int16_t` (two's complement, as on the target). -/
def to_i16 (x : Int) : Int := (x + 32768) % 65536 - 32768

/-! ## print_decimal -/

/-- Ways in which the embedding of `print_decimal` stops without a result. -/
inductive Fault where
  | out_of_fuel
  | out_of_bounds (idx : Int)
  | uninit_read (idx : Nat)
  deriving DecidableEq, Repr

/-- Number of cells of `char buf[10]`. -/
def BUF_LEN : Nat := 10

/-- Locals of `print_decimal` while the digits are collected; `stores` logs
the indices of `buf` written so far, in order. -/
structure PdState where
  ndx : Nat
  buf : Nat → Option Char
  num : Int
  stores : List Nat

/-- Store `buf[idx] = c` into an array of `cap` cells. -/
def buf_store (cap : Nat) (s : PdState) (idx : Nat) (c : Char) : Except Fault PdState :=
  if idx < cap then
    .ok { s with buf := Function.update s.buf idx (some c), stores := s.stores ++ [idx] }
  else
    .error (.out_of_bounds idx)

/-- Load `buf[idx]` from an array of `cap` cells. -/
def buf_load (cap : Nat) (buf : Nat → Option Char) (idx : Nat) : Except Fault Char :=
  if idx < cap then
    match buf idx with
    | some c => .ok c
    | none => .error (.uninit_read idx)
  else
    .error (.out_of_bounds idx)

/-- The loop `do { buf[ndx++] = (num % 10) + '0'; num = num / 10; } while (num != 0);`.
The first argument bounds the number of iterations. -/
def digit_loop (cap : Nat) : Nat → PdState → Except Fault PdState
  | 0, _ => .error .out_of_fuel
  | fuel + 1, s =>
    match buf_store cap s s.ndx (to_char (s.num.tmod 10 + ('0'.toNat : Int))) with
    | .error e => .error e
    | .ok s1 =>
      let s2 : PdState := { s1 with ndx := s1.ndx + 1, num := s1.num.tdiv 10 }
      if s2.num ≠ 0 then digit_loop cap fuel s2 else .ok s2

/-- The loop `while (buf[ndx] != '\000') { console_putc(buf[ndx--]); len++; }`:
`out` is what has been sent to the console so far. -/
def emit_loop (cap : Nat) (buf : Nat → Option Char) :
    Nat → List Char → Int → Except Fault (List Char × Int)
  | 0, out, len =>
    match buf_load cap buf 0 with
    | .error e => .error e
    | .ok c =>
      if c ≠ Char.ofNat 0 then .error (.out_of_bounds (-1)) else .ok (out, len)
  | ndx + 1, out, len =>
    match buf_load cap buf (ndx + 1) with
    | .error e => .error e
    | .ok c =>
      if c ≠ Char.ofNat 0 then emit_loop cap buf ndx (out ++ [c]) (len + 1) else .ok (out, len)

/-- What one call of `print_decimal` did: characters sent to the console in
order, the returned length, and the indices of `buf` that were written. -/
structure Printed where
  out : List Char
  len : Int
  stores : List Nat
  deriving DecidableEq, Repr

/-- `print_decimal` over a digit buffer of `cap` cells. The digit loop is
given `|num| + 1` iterations, which it never uses up
(`print_decimal_cap_terminates`). -/
def print_decimal_cap (cap : Nat) (num : Int) : Except Fault Printed :=
  let is_signed : Nat := if num < 0 then 1 else 0
  let num : Int := if num < 0 then wrap_int (0 - num) else num
  let s : PdState := { ndx := 0, buf := fun _ => none, num := num, stores := [] }
  match buf_store cap s s.ndx (Char.ofNat 0) with
  | .error e => .error e
  | .ok s0 =>
    match digit_loop cap (num.natAbs + 1) { s0 with ndx := s0.ndx + 1 } with
    | .error e => .error e
    | .ok s1 =>
      let ndx := s1.ndx - 1
      let out : List Char := if is_signed ≠ 0 then ['-'] else []
      let len : Int := if is_signed ≠ 0 then 1 else 0
      match emit_loop cap s1.buf ndx out len with
      | .error e => .error e
      | .ok (out, len) => .ok { out := out, len := len, stores := s1.stores }

/-- `print_decimal` as in the source, with `char buf[10]`. -/
def print_decimal (num : Int) : Except Fault Printed := print_decimal_cap BUF_LEN num

/-! ## The board: chip-select pin PC1, SPI5 data register, console -/

/-- Events on the chip-select pin (`GPIOC`, `GPIO1`) and on the SPI5 data
register, in program order. -/
inductive Event where
  | cs_low
  | cs_high
  | send (b : Nat)
  | read (v : Nat)
  deriving DecidableEq, Repr

/-- Calls on the console (`console.h`), which is outside this file. -/
inductive ConsoleCall where
  | putc (c : Char)
  | puts (s : String)
  deriving DecidableEq, Repr

/-- State of the board as far as this file drives it: `cs` is the level of
PC1 (`true` is high), `rx k` is what the SPI5 data register holds at the
`k`-th call of `spi_read`, `nread` counts those calls, `trace` and `console`
log what was done. -/
structure HW where
  cs : Bool
  rx : Nat → Nat
  nread : Nat
  trace : List Event
  console : List ConsoleCall

/-- The call `gpio_clear(GPIOC, GPIO1)`. -/
def gpio_clear (h : HW) : HW :=
  { h with cs := false, trace := h.trace ++ [Event.cs_low] }

/-- The call `gpio_set(GPIOC, GPIO1)`. -/
def gpio_set (h : HW) : HW :=
  { h with cs := true, trace := h.trace ++ [Event.cs_high] }

/-- The call `spi_send(SPI5, data)`; the parameter is a `uint16_t`. -/
def spi_send (h : HW) (data : Nat) : HW :=
  { h with trace := h.trace ++ [Event.send (to_u16 data)] }

/-- The call `spi_read(SPI5)`, which returns a `uint16_t`. -/
def spi_read (h : HW) : Nat × HW :=
  (to_u16 (h.rx h.nread),
   { h with nread := h.nread + 1, trace := h.trace ++ [Event.read (to_u16 (h.rx h.nread))] })

/-- The call `console_puts(s)`. -/
def console_puts (h : HW) (s : String) : HW :=
  { h with console := h.console ++ [ConsoleCall.puts s] }

/-- A call `print_decimal(num)` from `main`: every character goes out through
`console_putc`; the returned length is dropped by `main`. -/
def call_print_decimal (h : HW) (num : Int) : Except Fault HW :=
  match print_decimal num with
  | .error e => .error e
  | .ok p => .ok { h with console := h.console ++ p.out.map ConsoleCall.putc }

/-- `spi_init`, lines 59-84. Of its calls only `gpio_set(GPIOC, GPIO1)` drives
the chip-select level or the data register; the clock enables, pin modes and
SPI5 control-register settings leave both alone. -/
def spi_init (h : HW) : HW :=
  gpio_set h

/-- Locals of the body of `while (1)` in `main`. -/
structure Locals where
  who : Nat
  temp : Nat
  gyr_x : Int
  gyr_y : Int
  gyr_z : Int
  deriving DecidableEq, Repr

/-- Lines 165-183 of `main`: the two configuration transactions and the
column header. -/
def main_config (h : HW) : HW :=
  let h := gpio_clear h
  let h := spi_send h 32
  let h := (spi_read h).2
  let h := spi_send h (8 ||| 2 ||| 1 ||| 4 ||| (3 <<< 4))
  let h := (spi_read h).2
  let h := gpio_set h
  let h := gpio_clear h
  let h := spi_send h 35
  let h := (spi_read h).2
  let h := spi_send h (1 <<< 4)
  let h := (spi_read h).2
  let h := gpio_set h
  console_puts h "X\tY\tZ\n"

/-- Lines 192-253 of `main`: the nine register reads of one loop iteration. -/
def read_axes (h : HW) : Locals × HW :=
  let h := gpio_clear h
  let h := spi_send h (15 ||| 0x80)
  let h := (spi_read h).2
  let h := spi_send h 0
  let r := spi_read h
  let who := to_u8 r.1
  let h := gpio_set r.2
  let h := gpio_clear h
  let h := spi_send h (39 ||| 128)
  let h := (spi_read h).2
  let h := spi_send h 0
  let r := spi_read h
  let _temp := to_u8 r.1
  let h := gpio_set r.2
  let h := gpio_clear h
  let h := spi_send h (38 ||| 128)
  let h := (spi_read h).2
  let h := spi_send h 0
  let r := spi_read h
  let temp := to_u8 r.1
  let h := gpio_set r.2
  let h := gpio_clear h
  let h := spi_send h (40 ||| 128)
  let h := (spi_read h).2
  let h := spi_send h 0
  let r := spi_read h
  let gyr_x := to_i16 (r.1 : Int)
  let h := gpio_set r.2
  let h := gpio_clear h
  let h := spi_send h (41 ||| 128)
  let h := (spi_read h).2
  let h := spi_send h 0
  let r := spi_read h
  let gyr_x := to_i16 (Int.lor gyr_x ((r.1 <<< 8 : Nat) : Int))
  let h := gpio_set r.2
  let h := gpio_clear h
  let h := spi_send h (42 ||| 128)
  let h := (spi_read h).2
  let h := spi_send h 0
  let r := spi_read h
  let gyr_y := to_i16 (r.1 : Int)
  let h := gpio_set r.2
  let h := gpio_clear h
  let h := spi_send h (43 ||| 128)
  let h := (spi_read h).2
  let h := spi_send h 0
  let r := spi_read h
  let gyr_y := to_i16 (Int.lor gyr_y ((r.1 <<< 8 : Nat) : Int))
  let h := gpio_set r.2
  let h := gpio_clear h
  let h := spi_send h (44 ||| 128)
  let h := (spi_read h).2
  let h := spi_send h 0
  let r := spi_read h
  let gyr_z := to_i16 (r.1 : Int)
  let h := gpio_set r.2
  let h := gpio_clear h
  let h := spi_send h (45 ||| 128)
  let h := (spi_read h).2
  let h := spi_send h 0
  let r := spi_read h
  let gyr_z := to_i16 (Int.lor gyr_z ((r.1 <<< 8 : Nat) : Int))
  let h := gpio_set r.2
  ({ who := who, temp := temp, gyr_x := gyr_x, gyr_y := gyr_y, gyr_z := gyr_z }, h)

/-- Number of binary digits of `n`; the first argument bounds the recursion
(`n` itself is enough). -/
def bit_length : Nat → Nat → Nat
  | 0, _ => 0
  | fuel + 1, n => if n = 0 then 0 else bit_length fuel (n / 2) + 1

/-- Rounding to nearest, ties to even, at the 24 significant binary digits of
a single-precision `float`, on the numerator `N` of a value `N / 2 ^ e`. -/
def f32_round (N : Nat) : Nat :=
  let k := bit_length N N - 24
  let q := N / 2 ^ k
  let rem := N % 2 ^ k
  if 2 * rem > 2 ^ k ∨ (2 * rem = 2 ^ k ∧ q % 2 = 1) then (q + 1) * 2 ^ k else q * 2 ^ k

/-- The constant `0.0175F` is `F32_FACTOR / 2 ^ 29`, the single-precision
number nearest to 0.0175. -/
def F32_FACTOR : Nat := 9395241

/-- The statement `g = g*(0.0175F)` on an `int16_t`, lines 255-257: `g` is
converted to `float` (exactly, 16 bits fit), multiplied by `0.0175F` in single
precision, and the product is converted back to `int16_t`, which truncates
toward zero. Sign and magnitude are handled apart, as rounding to nearest and
truncation are both symmetric. -/
def scale (g : Int) : Int :=
  let mag : Nat := f32_round (g.natAbs * F32_FACTOR) / 2 ^ 29
  to_i16 (if g < 0 then -(mag : Int) else (mag : Int))

/-- Lines 255-257 of `main`: the three samples are scaled in place. -/
def scale_axes (v : Locals) : Locals :=
  { v with gyr_x := scale v.gyr_x, gyr_y := scale v.gyr_y, gyr_z := scale v.gyr_z }

/-- Lines 259-261 of `main`: the three samples are printed. -/
def print_axes (v : Locals) (h : HW) : Except Fault HW :=
  match call_print_decimal h v.gyr_x with
  | .error e => .error e
  | .ok h =>
    let h := console_puts h "\t"
    match call_print_decimal h v.gyr_y with
    | .error e => .error e
    | .ok h =>
      let h := console_puts h "\t"
      match call_print_decimal h v.gyr_z with
      | .error e => .error e
      | .ok h => .ok (console_puts h "\n")

/-- One iteration of `while (1)` in `main`, lines 186-266. The delay loop of
80000 `nop`s at the end changes nothing that is modelled. -/
def loop_body (h : HW) : Except Fault HW :=
  let r := read_axes h
  print_axes (scale_axes r.1) r.2

/-- Repetition of a loop body: the state after the first `n` iterations, or
the fault of the first iteration that has one. -/
def iterate_body (body : HW → Except Fault HW) : Nat → HW → Except Fault HW
  | 0, h => .ok h
  | n + 1, h =>
    match body h with
    | .error e => .error e
    | .ok h1 => iterate_body body n h1

/-- The first `n` iterations of `while (1)`. -/
def main_loop (n : Nat) (h : HW) : Except Fault HW := iterate_body loop_body n h

/-- The board when `main` is entered: PC1 not yet driven (output data bit 0),
nothing transferred; `rx` is what the sensor will answer. -/
def boot (rx : Nat → Nat) : HW :=
  { cs := false, rx := rx, nread := 0, trace := [], console := [] }

/-- `main` up to the end of the `n`-th loop iteration. `clock_setup` and
`console_setup` come first and touch neither PC1 nor SPI5. -/
def main (n : Nat) (rx : Nat → Nat) : Except Fault HW :=
  main_loop n (main_config (spi_init (boot rx)))

/-! ## Observers used to state the properties -/

/-- The answer the board gives to the `k`-th call of `spi_read` counted from
state `h` on, as the `uint16_t` that call returns. -/
def rx_at (h : HW) (k : Nat) : Nat := to_u16 (h.rx (h.nread + k))

/-- The events that `h1` has logged beyond those of `h`. -/
def events_since (h h1 : HW) : List Event := h1.trace.drop h.trace.length

/-- The bus trace of one register read as the specification words it: select,
the address with the read flag, a dummy byte whose answer is the value,
deselect. `d` is the discarded answer to the address byte. -/
def read_transaction (a d v : Nat) : List Event :=
  [Event.cs_low, Event.send (a ||| 0x80), Event.read d, Event.send 0, Event.read v,
   Event.cs_high]

/-- The bus trace of one register write as the specification words it:
select, the address, the value, deselect; `d1` and `d2` are the two discarded
answers. -/
def write_transaction (a v d1 d2 : Nat) : List Event :=
  [Event.cs_low, Event.send a, Event.read d1, Event.send v, Event.read d2, Event.cs_high]

/-- Chip-select discipline as an automaton over a trace. `level` is the
current level of the line (`true` is high, deasserted). A select is allowed
only while the line is high, a deselect and any transfer only while it is
low; the result is the final level, or `none` on the first violation. -/
def cs_check (level : Bool) : List Event → Option Bool
  | [] => some level
  | Event.cs_low :: t => if level then cs_check false t else none
  | Event.cs_high :: t => if level then none else cs_check true t
  | Event.send _ :: t => if level then none else cs_check false t
  | Event.read _ :: t => if level then none else cs_check false t

/-- The register reads found in a trace: for each framed two-transfer
transaction whose first byte has the read flag, the 7-bit address and the
answer to the second byte. -/
def reg_reads : List Event → List (Nat × Nat)
  | Event.cs_low :: Event.send b :: Event.read _ :: Event.send _ :: Event.read v ::
      Event.cs_high :: t =>
    if b &&& 0x80 ≠ 0 then (b &&& 0x7F, v) :: reg_reads t else reg_reads t
  | _ :: t => reg_reads t
  | [] => []

/-- The value a trace read from register `a` (the last one, if several). -/
def reg_value (tr : List Event) (a : Nat) : Option Nat :=
  ((reg_reads tr).reverse.find? (fun p => p.1 = a)).map Prod.snd

/-- One register transaction as it appears on the bus: the address byte, the
answer to it, the data byte, the answer to it. -/
structure Transaction where
  addr : Nat
  addr_answer : Nat
  data : Nat
  data_answer : Nat
  deriving DecidableEq, Repr

/-- Parsing of a trace into register transactions. A transaction is one frame
that holds the address byte and the data byte together: select, address byte,
answer, data byte, answer, deselect. The result is `none` as soon as a frame
ends before the data byte, holds a further transfer, or a transfer or a
deselect lies outside a frame; so a trace that parses has no deselect/select
pair between an address byte and its data byte. -/
def transactions : List Event → Option (List Transaction)
  | [] => some []
  | Event.cs_low :: Event.send a :: Event.read d :: Event.send b :: Event.read v ::
      Event.cs_high :: t =>
    match transactions t with
    | some l => some ({ addr := a, addr_answer := d, data := b, data_answer := v } :: l)
    | none => none
  | _ => none

/-- The events of the configuration phase when the sensor answers `rx`. -/
def config_events (rx : Nat → Nat) : List Event :=
  write_transaction 0x20 0x3F (to_u16 (rx 0)) (to_u16 (rx 1)) ++
  write_transaction 0x23 0x10 (to_u16 (rx 2)) (to_u16 (rx 3))

/-- The events of one loop iteration whose first `spi_read` is call number
`base`: the nine register reads, in program order. -/
def body_events (rx : Nat → Nat) (base : Nat) : List Event :=
  read_transaction 15 (to_u16 (rx (base + 0))) (to_u16 (rx (base + 1))) ++
  read_transaction 39 (to_u16 (rx (base + 2))) (to_u16 (rx (base + 3))) ++
  read_transaction 38 (to_u16 (rx (base + 4))) (to_u16 (rx (base + 5))) ++
  read_transaction 40 (to_u16 (rx (base + 6))) (to_u16 (rx (base + 7))) ++
  read_transaction 41 (to_u16 (rx (base + 8))) (to_u16 (rx (base + 9))) ++
  read_transaction 42 (to_u16 (rx (base + 10))) (to_u16 (rx (base + 11))) ++
  read_transaction 43 (to_u16 (rx (base + 12))) (to_u16 (rx (base + 13))) ++
  read_transaction 44 (to_u16 (rx (base + 14))) (to_u16 (rx (base + 15))) ++
  read_transaction 45 (to_u16 (rx (base + 16))) (to_u16 (rx (base + 17)))

/-- The nine register reads of one loop iteration as transactions. -/
def body_transactions (rx : Nat → Nat) (base : Nat) : List Transaction :=
  [{ addr := 15 ||| 0x80, addr_answer := to_u16 (rx (base + 0)), data := 0,
     data_answer := to_u16 (rx (base + 1)) },
   { addr := 39 ||| 0x80, addr_answer := to_u16 (rx (base + 2)), data := 0,
     data_answer := to_u16 (rx (base + 3)) },
   { addr := 38 ||| 0x80, addr_answer := to_u16 (rx (base + 4)), data := 0,
     data_answer := to_u16 (rx (base + 5)) },
   { addr := 40 ||| 0x80, addr_answer := to_u16 (rx (base + 6)), data := 0,
     data_answer := to_u16 (rx (base + 7)) },
   { addr := 41 ||| 0x80, addr_answer := to_u16 (rx (base + 8)), data := 0,
     data_answer := to_u16 (rx (base + 9)) },
   { addr := 42 ||| 0x80, addr_answer := to_u16 (rx (base + 10)), data := 0,
     data_answer := to_u16 (rx (base + 11)) },
   { addr := 43 ||| 0x80, addr_answer := to_u16 (rx (base + 12)), data := 0,
     data_answer := to_u16 (rx (base + 13)) },
   { addr := 44 ||| 0x80, addr_answer := to_u16 (rx (base + 14)), data := 0,
     data_answer := to_u16 (rx (base + 15)) },
   { addr := 45 ||| 0x80, addr_answer := to_u16 (rx (base + 16)), data := 0,
     data_answer := to_u16 (rx (base + 17)) }]

/-- The events of the loop iterations `k`, `k + 1`, ..., `k + n - 1`; iteration
`j` starts at `spi_read` call number `4 + 18 * j`, after the four reads of the
configuration phase and eighteen per earlier iteration. -/
def loop_events (rx : Nat → Nat) : Nat → Nat → List Event
  | _, 0 => []
  | k, n + 1 => body_events rx (4 + 18 * k) ++ loop_events rx (k + 1) n

/-- The events of `main` after `spi_init`, up to the end of the `n`-th loop
iteration. -/
def program_events (rx : Nat → Nat) (n : Nat) : List Event :=
  config_events rx ++ loop_events rx 0 n

/-- Assembly of an axis sample from its two bytes as the specification words
it: `low | (high << 8)` read as a signed 16-bit value. -/
def assemble (low high : Nat) : Int := to_i16 ((low ||| (high <<< 8) : Nat) : Int)

/-- Scaling as the specification idealises it: the factor is the exact
rational `0.0175 = 7/400` and the result is truncated toward zero. -/
def scale_exact (r : Int) : Int := (r * 7).tdiv 400

/-- The raw sample of axis `i` (0 is X, 1 is Y, 2 is Z) among the locals. -/
def Locals.axis (v : Locals) : Nat → Int
  | 0 => v.gyr_x
  | 1 => v.gyr_y
  | _ => v.gyr_z

/-- The canonical decimal text of an integer, as the specification words it: `-` in
front exactly when the number is negative, then the decimal digits of its
magnitude, most significant first (`Nat.toDigits 10`, the digits of
`Nat.repr`). -/
def canonical_decimal (num : Int) : List Char :=
  (if num < 0 then ['-'] else []) ++ Nat.toDigits 10 num.natAbs

/-- Writing the characters of a list into consecutive cells from `base` up. -/
def write_list (buf : Nat → Option Char) : Nat → List Char → Nat → Option Char
  | _, [] => buf
  | base, c :: l => write_list (Function.update buf base (some c)) (base + 1) l

/-! ## Theorems: print_decimal -/

theorem to_char_digit (m : Nat) (h : m < 10) :
    to_char ((m : Int) + ('0'.toNat : Int)) = Nat.digitChar m := by
  interval_cases m <;> rfl

theorem digitChar_ne_nul (m : Nat) (h : m < 10) : Nat.digitChar m ≠ Char.ofNat 0 := by
  interval_cases m <;> decide

theorem toDigitsCore_acc (fuel : Nat) : ∀ (n : Nat) (ds : List Char),
    Nat.toDigitsCore 10 fuel n ds = Nat.toDigitsCore 10 fuel n [] ++ ds := by
  induction fuel with
  | zero => intro n ds; simp [Nat.toDigitsCore]
  | succ fuel ih =>
    intro n ds
    simp only [Nat.toDigitsCore]
    split
    · simp
    · rw [ih (n / 10) (_ :: ds), ih (n / 10) [_]]; simp

theorem toDigitsCore_step (fuel n : Nat) :
    Nat.toDigitsCore 10 (fuel + 1) n [] =
      if n / 10 = 0 then [Nat.digitChar (n % 10)]
      else Nat.toDigitsCore 10 fuel (n / 10) [] ++ [Nat.digitChar (n % 10)] := by
  simp only [Nat.toDigitsCore]
  split
  · rfl
  · rw [toDigitsCore_acc]

theorem toDigitsCore_ne_nul (fuel : Nat) : ∀ (n : Nat),
    ∀ c ∈ Nat.toDigitsCore 10 fuel n [], c ≠ Char.ofNat 0 := by
  induction fuel with
  | zero => intro n c hc; simp [Nat.toDigitsCore] at hc
  | succ fuel ih =>
    intro n c hc
    rw [toDigitsCore_step] at hc
    split at hc
    · simp only [List.mem_singleton] at hc
      rw [hc]; exact digitChar_ne_nul _ (Nat.mod_lt _ (by decide))
    · rw [List.mem_append] at hc
      rcases hc with hc | hc
      · exact ih _ c hc
      · simp only [List.mem_singleton] at hc
        rw [hc]; exact digitChar_ne_nul _ (Nat.mod_lt _ (by decide))

theorem write_list_append (l : List Char) : ∀ (buf : Nat → Option Char) (base : Nat) (c : Char),
    write_list buf base (l ++ [c]) =
      Function.update (write_list buf base l) (base + l.length) (some c) := by
  induction l with
  | nil => intro buf base c; simp [write_list]
  | cons d l ih =>
    intro buf base c
    rw [show d :: l ++ [c] = d :: (l ++ [c]) from rfl]
    simp only [write_list, List.length_cons]
    rw [ih, show base + 1 + l.length = base + (l.length + 1) by omega]

theorem emit_loop_congr (cap : Nat) (b1 b2 : Nat → Option Char) :
    ∀ (k : Nat) (out : List Char) (len : Int), (∀ j, j ≤ k → b1 j = b2 j) →
      emit_loop cap b1 k out len = emit_loop cap b2 k out len := by
  intro k
  induction k with
  | zero =>
    intro out len h
    simp only [emit_loop, buf_load, h 0 (le_refl 0)]
  | succ k ih =>
    intro out len h
    have ih2 := fun o l => ih o l (fun j hj => h j (by omega))
    simp only [emit_loop, buf_load, h (k + 1) (le_refl _), ih2]

/-- Reading back a block written by `write_list` above a terminator cell:
the emit loop sends the block in reverse and counts its characters. -/
theorem emit_loop_write_list (cap : Nat) (l : List Char) :
    ∀ (buf : Nat → Option Char) (out : List Char) (len : Int),
      buf 0 = some (Char.ofNat 0) → l.length < cap → (∀ c ∈ l, c ≠ Char.ofNat 0) →
      emit_loop cap (write_list buf 1 l) l.length out len =
        .ok (out ++ l.reverse, len + l.length) := by
  induction l using List.reverseRecOn with
  | nil =>
    intro buf out len h0 hcap _
    have hpos : 0 < cap := by simpa using hcap
    simp [emit_loop, buf_load, write_list, h0, hpos]
  | append_singleton l c ih =>
    intro buf out len h0 hcap hne
    have hc : c ≠ Char.ofNat 0 := hne c (by simp)
    have hl : l.length + 1 < cap := by simpa using hcap
    rw [write_list_append, List.length_append, List.length_singleton,
      show 1 + l.length = l.length + 1 by omega]
    simp only [emit_loop, buf_load, hl, if_true, Function.update_same]
    rw [if_pos hc]
    have hagree : ∀ j, j ≤ l.length →
        Function.update (write_list buf 1 l) (l.length + 1) (some c) j = write_list buf 1 l j :=
      fun j hj => Function.update_noteq (by omega) _ _
    rw [emit_loop_congr cap _ (write_list buf 1 l) l.length _ _ hagree]
    rw [ih buf _ _ h0 (by omega) (fun d hd => hne d (by simp [hd]))]
    exact congrArg Except.ok (Prod.ext (by simp) (by simp only; push_cast; ring))

/-- The digit loop on a non-negative number that fits the buffer: it stores
the digits of `n`, least significant first, from `s.ndx` up and leaves `num = 0`. -/
theorem digit_loop_spec (cap : Nat) (fuel : Nat) :
    ∀ (n : Nat) (s : PdState), s.num = (n : Int) → n < fuel →
      s.ndx + (Nat.toDigitsCore 10 fuel n []).length ≤ cap →
      ∃ s1, digit_loop cap fuel s = .ok s1 ∧
        s1.ndx = s.ndx + (Nat.toDigitsCore 10 fuel n []).length ∧
        s1.buf = write_list s.buf s.ndx (Nat.toDigitsCore 10 fuel n []).reverse ∧
        s1.stores = s.stores ++ List.range' s.ndx (Nat.toDigitsCore 10 fuel n []).length := by
  induction fuel with
  | zero => intro n s _ h; omega
  | succ fuel ih =>
    intro n s hnum hfuel hcap
    rw [toDigitsCore_step] at hcap ⊢
    have hmod : to_char (s.num.tmod 10 + ('0'.toNat : Int)) = Nat.digitChar (n % 10) := by
      rw [hnum, show (10 : Int) = ((10 : Nat) : Int) from rfl, ← Int.ofNat_tmod]
      exact to_char_digit _ (Nat.mod_lt _ (by decide))
    have hdiv : s.num.tdiv 10 = ((n / 10 : Nat) : Int) := by
      rw [hnum, show (10 : Int) = ((10 : Nat) : Int) from rfl, ← Int.ofNat_tdiv]
    by_cases h0 : n / 10 = 0
    · simp only [h0, if_true, List.length_singleton] at hcap ⊢
      have hlt : s.ndx < cap := by omega
      refine ⟨{ ndx := s.ndx + 1,
                buf := Function.update s.buf s.ndx (some (Nat.digitChar (n % 10))),
                num := ((n / 10 : Nat) : Int), stores := s.stores ++ [s.ndx] }, ?_, ?_⟩
      · simp only [digit_loop, buf_store, hlt, if_true, hmod, hdiv, h0]
        simp
      · simp [write_list]
    · simp only [h0, if_false, List.length_append, List.length_singleton] at hcap ⊢
      have hlt : s.ndx < cap := by omega
      obtain ⟨s1, hs1, hndx, hbuf, hst⟩ := ih (n / 10)
        { ndx := s.ndx + 1, buf := Function.update s.buf s.ndx (some (Nat.digitChar (n % 10))),
          num := ((n / 10 : Nat) : Int), stores := s.stores ++ [s.ndx] } rfl (by omega)
          (by simp only; omega)
      refine ⟨s1, ?_, ?_, ?_, ?_⟩
      · simp only [digit_loop, buf_store, hlt, if_true, hmod, hdiv]
        rw [if_pos (by exact_mod_cast h0)]
        exact hs1
      · rw [hndx]; simp only; omega
      · rw [hbuf]; simp [write_list]
      · rw [hst]; simp [List.range'_append, List.range'_succ, List.range'_concat]

theorem wrap_int_neg (num : Int) (h1 : -2147483648 < num) (h2 : num < 0) :
    wrap_int (0 - num) = (num.natAbs : Int) := by
  unfold wrap_int
  omega

/-- The whole routine on a value whose digit count is below the buffer size. -/
theorem print_decimal_cap_ok (cap : Nat) (num : Int)
    (hlo : -2147483648 < num)
    (hfit : (Nat.toDigits 10 num.natAbs).length < cap) :
    print_decimal_cap cap num = .ok
      { out := canonical_decimal num,
        len := ((canonical_decimal num).length : Int),
        stores := List.range ((Nat.toDigits 10 num.natAbs).length + 1) } := by
  have hpos : 0 < cap := by omega
  have hnum : (if num < 0 then wrap_int (0 - num) else num) = (num.natAbs : Int) := by
    split
    · exact wrap_int_neg num hlo (by assumption)
    · omega
  unfold print_decimal_cap
  simp only [hnum, buf_store, hpos, if_true, Int.natAbs_ofNat]
  obtain ⟨s1, hs1, hndx, hbuf, hst⟩ := digit_loop_spec cap (num.natAbs + 1) num.natAbs
    { ndx := 1, buf := Function.update (fun _ => none) 0 (some (Char.ofNat 0)),
      num := (num.natAbs : Int), stores := [] ++ [0] } rfl (by omega)
      (by simp only [Nat.toDigits] at hfit; simp only; omega)
  rw [hs1]
  simp only [hndx, hbuf, hst, Nat.add_sub_cancel_left]
  have hemit := emit_loop_write_list cap (Nat.toDigitsCore 10 (num.natAbs + 1) num.natAbs []).reverse
    (Function.update (fun _ => none) 0 (some (Char.ofNat 0)))
    (if (if num < 0 then 1 else 0) ≠ 0 then ['-'] else [])
    (if (if num < 0 then 1 else 0) ≠ 0 then 1 else 0)
    (by simp) (by simpa [Nat.toDigits] using hfit)
    (fun c hc => toDigitsCore_ne_nul _ _ c (by simpa using hc))
  rw [List.length_reverse] at hemit
  rw [hemit]
  by_cases hneg : num < 0
  · simp [canonical_decimal, Nat.toDigits, hneg, List.range_eq_range', List.range'_append,
      List.range'_succ]
    omega
  · simp [canonical_decimal, Nat.toDigits, hneg, List.range_eq_range', List.range'_append,
      List.range'_succ]

/-! ## Theorems: the loop of main -/

theorem to_i16_range (x : Int) : -32768 ≤ to_i16 x ∧ to_i16 x ≤ 32767 := by
  unfold to_i16; omega

theorem bit_length_le (fuel : Nat) : ∀ (n e : Nat), n < 2 ^ e → bit_length fuel n ≤ e := by
  induction fuel with
  | zero => intro n e _; simp [bit_length]
  | succ fuel ih =>
    intro n e h
    unfold bit_length
    split
    · exact Nat.zero_le _
    · next hn =>
      cases e with
      | zero => simp at h; omega
      | succ e =>
        have : n / 2 < 2 ^ e := by
          rw [Nat.pow_succ] at h
          omega
        have := ih (n / 2) e this
        omega

/-- The constant is a 24-bit significand and lies within half a unit in the
last place (`2 ^ -30`) of `7/400`, so it is the `float` nearest to 0.0175. -/
theorem f32_factor_nearest :
    2 ^ 23 ≤ F32_FACTOR ∧ F32_FACTOR < 2 ^ 24 ∧
      (F32_FACTOR : Int) * 400 - 7 * 2 ^ 29 = 16 ∧ 2 * (16 : Int) ≤ 400 := by
  decide

/-- Rounding a numerator below `2 ^ 39` moves it by less than `2 ^ 15` and
never across a multiple of `2 ^ 29`, so the integer part is kept whenever the
numerator is `2 ^ 15` clear of the next integer. -/
theorem f32_round_between (N m : Nat) (hN : N < 2 ^ 39) (hlo : m * 2 ^ 29 ≤ N)
    (hhi : N + 2 ^ 15 < (m + 1) * 2 ^ 29) : f32_round N / 2 ^ 29 = m := by
  have hk : bit_length N N - 24 ≤ 15 := by
    have := bit_length_le N N 39 hN
    omega
  unfold f32_round
  generalize bit_length N N - 24 = k at hk
  have hP : 0 < 2 ^ k := Nat.two_pow_pos k
  have hPle : 2 ^ k ≤ 2 ^ 15 := Nat.pow_le_pow_right (by decide) hk
  have hsplit : 2 ^ 29 = 2 ^ (29 - k) * 2 ^ k := by
    rw [← Nat.pow_add]; congr 1; omega
  have hq : N / 2 ^ k * 2 ^ k ≤ N := Nat.div_mul_le_self N (2 ^ k)
  have hlow : m * 2 ^ 29 ≤ N / 2 ^ k * 2 ^ k := by
    have h1 : m * 2 ^ (29 - k) ≤ N / 2 ^ k := by
      rw [Nat.le_div_iff_mul_le hP, Nat.mul_assoc, ← hsplit]
      exact hlo
    calc m * 2 ^ 29 = m * 2 ^ (29 - k) * 2 ^ k := by rw [Nat.mul_assoc, ← hsplit]
      _ ≤ N / 2 ^ k * 2 ^ k := Nat.mul_le_mul_right _ h1
  have hup : (N / 2 ^ k + 1) * 2 ^ k < (m + 1) * 2 ^ 29 := by
    rw [Nat.add_mul, Nat.one_mul]
    omega
  simp only
  split
  · exact Nat.div_eq_of_lt_le (by rw [Nat.add_mul, Nat.one_mul]; omega) hup
  · exact Nat.div_eq_of_lt_le hlow (by rw [Nat.add_mul, Nat.one_mul] at hup; omega)

/-- On 16-bit samples the single-precision scaling agrees with the exact
rational one, and the result has at most three digits. -/
theorem scale_eq (g : Int) (h1 : -32768 ≤ g) (h2 : g ≤ 32767) :
    scale g = (g * 7).tdiv 400 ∧ -573 ≤ (g * 7).tdiv 400 ∧ (g * 7).tdiv 400 ≤ 573 := by
  have key : -573 ≤ (g * 7).tdiv 400 ∧ (g * 7).tdiv 400 ≤ 573 := by
    rcases le_total 0 g with hg | hg
    · rw [Int.tdiv_eq_ediv (by omega) (by decide)]; omega
    · have : (g * 7).tdiv 400 = -((-g * 7) / 400) := by
        rw [← Int.tdiv_eq_ediv (by omega) (by decide), ← Int.neg_tdiv]
        congr 1; ring
      rw [this]; omega
  refine ⟨?_, key⟩
  have hr : g.natAbs ≤ 32768 := by omega
  have hmag : f32_round (g.natAbs * F32_FACTOR) / 2 ^ 29 = g.natAbs * 7 / 400 :=
    f32_round_between _ _ (by unfold F32_FACTOR; norm_num; omega)
      (by unfold F32_FACTOR; norm_num; omega) (by unfold F32_FACTOR; norm_num; omega)
  have hc : ((g.natAbs * 7 / 400 : Nat) : Int) = ((g.natAbs : Int) * 7) / 400 := by
    norm_cast
  have hs : scale g = to_i16 (if g < 0 then -((g.natAbs * 7 / 400 : Nat) : Int)
      else ((g.natAbs * 7 / 400 : Nat) : Int)) := by
    unfold scale
    simp only [hmag]
  have hid : ∀ x : Int, -573 ≤ x → x ≤ 573 → to_i16 x = x := by
    intro x _ _; unfold to_i16; omega
  rw [hs, hc]
  rcases le_total 0 g with hg | hg
  · have hna : (g.natAbs : Int) = g := by omega
    have hneg : ¬ g < 0 := by omega
    rw [hna, if_neg hneg, ← Int.tdiv_eq_ediv (by omega) (by decide)]
    exact hid _ key.1 key.2
  · have hna : (g.natAbs : Int) = -g := by omega
    have hd : (g * 7).tdiv 400 = -((-g * 7) / 400) := by
      rw [← Int.tdiv_eq_ediv (by omega) (by decide), ← Int.neg_tdiv]
      congr 1; ring
    rw [hna]
    by_cases h0 : g < 0
    · rw [if_pos h0, ← hd]
      exact hid _ key.1 key.2
    · have hz : g = 0 := by omega
      subst hz
      rfl

theorem read_axes_trace (h : HW) :
    (read_axes h).2.trace = h.trace ++
      (read_transaction 15 (rx_at h 0) (rx_at h 1) ++
       read_transaction 39 (rx_at h 2) (rx_at h 3) ++
       read_transaction 38 (rx_at h 4) (rx_at h 5) ++
       read_transaction 40 (rx_at h 6) (rx_at h 7) ++
       read_transaction 41 (rx_at h 8) (rx_at h 9) ++
       read_transaction 42 (rx_at h 10) (rx_at h 11) ++
       read_transaction 43 (rx_at h 12) (rx_at h 13) ++
       read_transaction 44 (rx_at h 14) (rx_at h 15) ++
       read_transaction 45 (rx_at h 16) (rx_at h 17)) := by
  simp [read_axes, read_transaction, gpio_clear, gpio_set, spi_send, spi_read, to_u16, rx_at]

theorem read_axes_locals (h : HW) :
    (read_axes h).1 =
      { who := to_u8 (rx_at h 1),
        temp := to_u8 (rx_at h 5),
        gyr_x := to_i16 (Int.lor (to_i16 (rx_at h 7 : Int)) ((rx_at h 9 <<< 8 : Nat) : Int)),
        gyr_y := to_i16 (Int.lor (to_i16 (rx_at h 11 : Int)) ((rx_at h 13 <<< 8 : Nat) : Int)),
        gyr_z := to_i16 (Int.lor (to_i16 (rx_at h 15 : Int)) ((rx_at h 17 <<< 8 : Nat) : Int)) } := by
  rfl

theorem read_axes_state (h : HW) :
    (read_axes h).2.cs = true ∧ (read_axes h).2.rx = h.rx ∧
      (read_axes h).2.nread = h.nread + 18 ∧ (read_axes h).2.console = h.console :=
  ⟨rfl, rfl, rfl, rfl⟩

theorem toDigits_length_le (n e : Nat) (h : n < 10 ^ e) (he : 0 < e) :
    (Nat.toDigits 10 n).length ≤ e :=
  Nat.toDigitsCore_length 10 (by decide) (n + 1) n e h he

/-- A scaled sample always prints: at most three digits, so the stores stay
within `buf[0..3]`. -/
theorem print_scaled (g : Int) (h1 : -32768 ≤ g) (h2 : g ≤ 32767) :
    ∃ p, print_decimal (scale g) = .ok p ∧ p.out = canonical_decimal (scale g) ∧
      p.len = (p.out.length : Int) ∧ p.out.length ≤ 4 ∧ 1 ≤ p.out.length ∧
      ∀ i ∈ p.stores, i ≤ 3 := by
  obtain ⟨he, hlo, hhi⟩ := scale_eq g h1 h2
  rw [← he] at hlo hhi
  have hlen : (Nat.toDigits 10 (scale g).natAbs).length ≤ 3 :=
    toDigits_length_le _ 3 (by omega) (by decide)
  have hpos : 1 ≤ (Nat.toDigits 10 (scale g).natAbs).length := by
    simp only [Nat.toDigits, toDigitsCore_step]
    split <;> simp
  refine ⟨_, print_decimal_cap_ok BUF_LEN (scale g) (by omega) (by unfold BUF_LEN; omega),
    rfl, rfl, ?_, ?_, ?_⟩
  · simp only [canonical_decimal, List.length_append]
    split <;> simp <;> omega
  · simp only [canonical_decimal, List.length_append]
    omega
  · intro i hi
    simp only [List.mem_range] at hi
    omega

theorem call_print_scaled (h : HW) (g : Int) (h1 : -32768 ≤ g) (h2 : g ≤ 32767) :
    ∃ h', call_print_decimal h (scale g) = .ok h' ∧ h'.trace = h.trace ∧ h'.cs = h.cs ∧
      h'.rx = h.rx ∧ h'.nread = h.nread := by
  obtain ⟨p, hp, _⟩ := print_scaled g h1 h2
  refine ⟨{ h with console := h.console ++ p.out.map ConsoleCall.putc }, ?_, rfl, rfl, rfl, rfl⟩
  simp only [call_print_decimal, hp]

theorem print_axes_ok (v : Locals) (h : HW)
    (hx : -32768 ≤ v.gyr_x ∧ v.gyr_x ≤ 32767) (hy : -32768 ≤ v.gyr_y ∧ v.gyr_y ≤ 32767)
    (hz : -32768 ≤ v.gyr_z ∧ v.gyr_z ≤ 32767) :
    ∃ h1, print_axes (scale_axes v) h = .ok h1 ∧ h1.trace = h.trace ∧ h1.cs = h.cs ∧
      h1.rx = h.rx ∧ h1.nread = h.nread := by
  obtain ⟨ha, hae, hat, hac, har, han⟩ := call_print_scaled h _ hx.1 hx.2
  obtain ⟨hb, hbe, hbt, hbc, hbr, hbn⟩ := call_print_scaled (console_puts ha "\t") _ hy.1 hy.2
  obtain ⟨hc, hce, hct, hcc, hcr, hcn⟩ := call_print_scaled (console_puts hb "\t") _ hz.1 hz.2
  refine ⟨console_puts hc "\n", ?_, ?_, ?_, ?_, ?_⟩
  · simp only [print_axes, scale_axes, hae, hbe, hce]
  · simp only [console_puts, hct, hbt, hat]
  · simp only [console_puts, hcc, hbc, hac]
  · simp only [console_puts, hcr, hbr, har]
  · simp only [console_puts, hcn, hbn, han]

theorem read_axes_in_range (h : HW) :
    (-32768 ≤ (read_axes h).1.gyr_x ∧ (read_axes h).1.gyr_x ≤ 32767) ∧
    (-32768 ≤ (read_axes h).1.gyr_y ∧ (read_axes h).1.gyr_y ≤ 32767) ∧
    (-32768 ≤ (read_axes h).1.gyr_z ∧ (read_axes h).1.gyr_z ≤ 32767) := by
  rw [read_axes_locals]
  exact ⟨to_i16_range _, to_i16_range _, to_i16_range _⟩

/-- One loop iteration never faults, and beyond the register reads it changes
only the console. -/
theorem loop_body_ok (h : HW) :
    ∃ h1, loop_body h = .ok h1 ∧ h1.trace = (read_axes h).2.trace ∧ h1.cs = true ∧
      h1.rx = h.rx ∧ h1.nread = h.nread + 18 := by
  obtain ⟨gx, gy, gz⟩ := read_axes_in_range h
  obtain ⟨hcs, hrx, hn, _⟩ := read_axes_state h
  obtain ⟨h1, he, ht, hc, hr, hnr⟩ := print_axes_ok (read_axes h).1 (read_axes h).2 gx gy gz
  exact ⟨h1, he, ht, hc.trans hcs, hr.trans hrx, hnr.trans hn⟩

/-! ## Theorems: termination, traces and chip-select -/

/-- The text `canonical_decimal` is the one Lean itself prints for the integer. -/
theorem canonical_decimal_eq_toString (num : Int) :
    String.mk (canonical_decimal num) = toString num := by
  cases num with
  | ofNat n =>
    have h : ¬ ((Int.ofNat n) < 0) := by simp
    simp only [canonical_decimal, h, if_false, List.nil_append]
    rfl
  | negSucc n =>
    have h : (Int.negSucc n) < 0 := Int.negSucc_lt_zero n
    simp only [canonical_decimal, h, if_true]
    rfl

/-- The digit loop never stops for lack of iterations when it is given more
of them than the magnitude of `num`. -/
theorem digit_loop_fuel (cap : Nat) (fuel : Nat) : ∀ s : PdState, s.num.natAbs < fuel →
    digit_loop cap fuel s ≠ .error Fault.out_of_fuel := by
  induction fuel with
  | zero => intro s h; omega
  | succ fuel ih =>
    intro s h
    simp only [digit_loop, buf_store]
    split
    · next e he =>
      split at he
      · cases he
      · intro hc
        cases he
        cases hc
    · next s1 he =>
      split at he
      · cases he
        simp only
        split
        · next hne =>
          apply ih
          simp only [Int.natAbs_tdiv]
          have h10 : (10 : Int).natAbs = 10 := rfl
          rw [h10]
          have hpos : s.num.natAbs ≠ 0 := by
            intro h0
            apply hne
            have : s.num = 0 := Int.natAbs_eq_zero.mp h0
            rw [this]; rfl
          have : s.num.natAbs.div 10 < s.num.natAbs := Nat.div_lt_self (by omega) (by decide)
          omega
        · intro hc; cases hc
      · cases he

theorem buf_load_fuel (cap : Nat) (buf : Nat → Option Char) (i : Nat) :
    buf_load cap buf i ≠ .error Fault.out_of_fuel := by
  unfold buf_load
  split
  · split <;> simp
  · simp

theorem emit_loop_fuel (cap : Nat) (buf : Nat → Option Char) :
    ∀ (k : Nat) (out : List Char) (len : Int),
      emit_loop cap buf k out len ≠ .error Fault.out_of_fuel := by
  intro k
  induction k with
  | zero =>
    intro out len
    have hl := buf_load_fuel cap buf 0
    unfold emit_loop
    cases hb : buf_load cap buf 0 with
    | error e =>
      rw [hb] at hl
      simpa using hl
    | ok c =>
      simp only
      split <;> simp
  | succ k ih =>
    intro out len
    have hl := buf_load_fuel cap buf (k + 1)
    unfold emit_loop
    cases hb : buf_load cap buf (k + 1) with
    | error e =>
      rw [hb] at hl
      simpa using hl
    | ok c =>
      simp only
      split
      · exact ih _ _
      · simp

/-- `print_decimal` always comes to an end: the iteration bound of the
embedding is never what stops it. -/
theorem print_decimal_cap_terminates (cap : Nat) (num : Int) :
    print_decimal_cap cap num ≠ .error Fault.out_of_fuel := by
  unfold print_decimal_cap
  simp only [buf_store]
  split
  · next e he =>
    split at he
    · cases he
    · intro hc; cases he; cases hc
  · next s0 he =>
    split at he
    · cases he
      simp only
      split
      · next e hd =>
        intro hc
        cases hc
        exact digit_loop_fuel cap _ _ (by simp only; omega) hd
      · next s1 hd =>
        split
        · next e hem =>
          intro hc
          cases hc
          exact emit_loop_fuel cap _ _ _ _ hem
        · intro hc; cases hc
    · cases he

theorem events_since_append (h h1 : HW) (E : List Event) (ht : h1.trace = h.trace ++ E) :
    events_since h h1 = E := by
  simp [events_since, ht]

theorem assemble_bytes (lo hi : Nat) (hlo : lo < 256) :
    to_i16 (Int.lor (to_i16 (lo : Int)) ((hi <<< 8 : Nat) : Int)) = assemble lo hi := by
  have e3 : to_i16 (lo : Int) = (lo : Int) := by unfold to_i16; omega
  rw [e3]; rfl

theorem read_axes_events (h : HW) :
    events_since h (read_axes h).2 =
      read_transaction 15 (rx_at h 0) (rx_at h 1) ++
      read_transaction 39 (rx_at h 2) (rx_at h 3) ++
      read_transaction 38 (rx_at h 4) (rx_at h 5) ++
      read_transaction 40 (rx_at h 6) (rx_at h 7) ++
      read_transaction 41 (rx_at h 8) (rx_at h 9) ++
      read_transaction 42 (rx_at h 10) (rx_at h 11) ++
      read_transaction 43 (rx_at h 12) (rx_at h 13) ++
      read_transaction 44 (rx_at h 14) (rx_at h 15) ++
      read_transaction 45 (rx_at h 16) (rx_at h 17) :=
  events_since_append h _ _ (read_axes_trace h)

theorem read_axes_reg_reads (h : HW) :
    reg_reads (events_since h (read_axes h).2) =
      [(15, rx_at h 1), (39, rx_at h 3), (38, rx_at h 5), (40, rx_at h 7), (41, rx_at h 9),
       (42, rx_at h 11), (43, rx_at h 13), (44, rx_at h 15), (45, rx_at h 17)] := by
  rw [read_axes_events]
  simp [read_transaction, reg_reads]
  decide

theorem cs_check_append (l1 : List Event) : ∀ (l2 : List Event) (a b : Bool),
    cs_check a l1 = some b → cs_check a (l1 ++ l2) = cs_check b l2 := by
  induction l1 with
  | nil =>
    intro l2 a b h
    simp only [cs_check, Option.some.injEq] at h
    rw [List.nil_append, h]
  | cons e l1 ih =>
    intro l2 a b h
    cases e <;> cases a <;> simp only [cs_check, List.cons_append] at h ⊢ <;>
      first
        | exact ih l2 _ b h
        | simp at h

/-- One loop iteration, from any state of the board: it returns, adds
exactly the nine register reads to the trace and leaves chip-select high. -/
theorem loop_body_events (h : HW) :
    ∃ h1, loop_body h = .ok h1 ∧ h1.trace = h.trace ++ body_events h.rx h.nread ∧
      h1.cs = true ∧ h1.rx = h.rx ∧ h1.nread = h.nread + 18 := by
  obtain ⟨h1, hb, ht, hc, hr, hn⟩ := loop_body_ok h
  exact ⟨h1, hb, ht.trans (read_axes_trace h), hc, hr, hn⟩

theorem iterate_body_succ (body : HW → Except Fault HW) (n : Nat) (h h1 : HW)
    (hb : body h = .ok h1) : iterate_body body (n + 1) h = iterate_body body n h1 := by
  simp only [iterate_body, hb]

theorem main_loop_events (n : Nat) : ∀ (k : Nat) (h : HW), h.nread = 4 + 18 * k →
    h.cs = true →
    ∃ h1, main_loop n h = .ok h1 ∧ h1.trace = h.trace ++ loop_events h.rx k n ∧
      h1.cs = true := by
  induction n with
  | zero =>
    intro k h _ hcs
    exact ⟨h, rfl, by simp [loop_events], hcs⟩
  | succ n ih =>
    intro k h hn hcs
    obtain ⟨h1, hb, ht, hc, hr, hn1⟩ := loop_body_events h
    obtain ⟨h2, hl, ht2, hc2⟩ := ih (k + 1) h1 (by rw [hn1, hn]; ring) hc
    refine ⟨h2, ?_, ?_, hc2⟩
    · unfold main_loop at hl ⊢
      rw [iterate_body_succ loop_body n h h1 hb]
      exact hl
    · rw [ht2, ht, hr, hn, List.append_assoc]
      rfl

theorem cs_check_body_events (rx : Nat → Nat) (base : Nat) :
    cs_check true (body_events rx base) = some true := rfl

theorem cs_check_loop_events (rx : Nat → Nat) (n : Nat) : ∀ k : Nat,
    cs_check true (loop_events rx k n) = some true := by
  induction n with
  | zero => intro k; rfl
  | succ n ih =>
    intro k
    show cs_check true (body_events rx (4 + 18 * k) ++ loop_events rx (k + 1) n) = some true
    rw [cs_check_append _ _ _ _ (cs_check_body_events rx _)]
    exact ih (k + 1)

/-- The parser is stricter than the level automaton: a read whose address
byte and data byte sit in two separate frames passes `cs_check` but is not a
sequence of transactions. -/
theorem transactions_rejects_split_frame (a d v : Nat) :
    cs_check true [Event.cs_low, Event.send a, Event.read d, Event.cs_high,
      Event.cs_low, Event.send 0, Event.read v, Event.cs_high] = some true ∧
    transactions [Event.cs_low, Event.send a, Event.read d, Event.cs_high,
      Event.cs_low, Event.send 0, Event.read v, Event.cs_high] = none :=
  ⟨rfl, rfl⟩

theorem transactions_write (a v d1 d2 : Nat) (t : List Event) (l : List Transaction)
    (ht : transactions t = some l) :
    transactions (write_transaction a v d1 d2 ++ t) =
      some ({ addr := a, addr_answer := d1, data := v, data_answer := d2 } :: l) := by
  simp [write_transaction, transactions, ht]

theorem transactions_read (a d v : Nat) (t : List Event) (l : List Transaction)
    (ht : transactions t = some l) :
    transactions (read_transaction a d v ++ t) =
      some ({ addr := a ||| 0x80, addr_answer := d, data := 0, data_answer := v } :: l) := by
  simp [read_transaction, transactions, ht]

theorem transactions_body_events (rx : Nat → Nat) (base : Nat) (t : List Event)
    (l : List Transaction) (ht : transactions t = some l) :
    transactions (body_events rx base ++ t) = some (body_transactions rx base ++ l) := by
  unfold body_events
  simp only [List.append_assoc]
  rw [transactions_read _ _ _ _ _ (transactions_read _ _ _ _ _ (transactions_read _ _ _ _ _
    (transactions_read _ _ _ _ _ (transactions_read _ _ _ _ _ (transactions_read _ _ _ _ _
    (transactions_read _ _ _ _ _ (transactions_read _ _ _ _ _
    (transactions_read _ _ _ _ _ ht))))))))]
  rfl

theorem body_transactions_reads (rx : Nat → Nat) (base : Nat) :
    (body_transactions rx base).length = 9 ∧
      ∀ x ∈ body_transactions rx base, x.addr &&& 0x80 = 0x80 ∧ x.data = 0 := by
  refine ⟨rfl, ?_⟩
  intro x hx
  simp only [body_transactions, List.mem_cons, List.mem_singleton, List.not_mem_nil,
    or_false] at hx
  rcases hx with rfl | rfl | rfl | rfl | rfl | rfl | rfl | rfl | rfl <;>
    exact ⟨by dsimp only; decide, rfl⟩

theorem transactions_loop_events (rx : Nat → Nat) (n : Nat) : ∀ k : Nat,
    ∃ l, transactions (loop_events rx k n) = some l ∧ l.length = 9 * n ∧
      ∀ x ∈ l, x.addr &&& 0x80 = 0x80 ∧ x.data = 0 := by
  induction n with
  | zero => intro k; exact ⟨[], rfl, rfl, by simp⟩
  | succ n ih =>
    intro k
    obtain ⟨l, hl, hlen, hall⟩ := ih (k + 1)
    have h9 := transactions_body_events rx (4 + 18 * k) _ l hl
    obtain ⟨hlen9, hall9⟩ := body_transactions_reads rx (4 + 18 * k)
    refine ⟨body_transactions rx (4 + 18 * k) ++ l, h9, ?_, ?_⟩
    · rw [List.length_append, hlen9, hlen]; ring
    · intro x hx
      rcases List.mem_append.mp hx with hx | hx
      · exact hall9 x hx
      · exact hall x hx

theorem main_config_eq (h : HW) :
    main_config h =
      { cs := true, rx := h.rx, nread := h.nread + 4,
        trace := h.trace ++ (write_transaction 0x20 0x3F (rx_at h 0) (rx_at h 1) ++
          write_transaction 0x23 0x10 (rx_at h 2) (rx_at h 3)),
        console := h.console ++ [ConsoleCall.puts "X\tY\tZ\n"] } := by
  simp [main_config, write_transaction, gpio_clear, gpio_set, spi_send, spi_read, to_u16,
    rx_at, console_puts]

/-! ## Properties C1 to C10 -/

/-- C1: for every `num` of at most nine decimal digits,
`-999999999 ≤ num ≤ 999999999`, `print_decimal num` returns, and what it sent
to the console is exactly the canonical decimal text of `num` (a `-` first
exactly when `num < 0`, then the digits of `|num|`, most significant first,
without a leading zero; it is also the text `toString num`), and the returned
length is the number of characters sent. -/
theorem print_decimal_canonical (num : Int) (hlo : -999999999 ≤ num) (hhi : num ≤ 999999999) :
    ∃ p, print_decimal num = .ok p ∧ p.out = canonical_decimal num ∧
      String.mk p.out = toString num ∧ p.len = (p.out.length : Int) := by
  have hlen : (Nat.toDigits 10 num.natAbs).length ≤ 9 :=
    toDigits_length_le _ 9 (by omega) (by decide)
  exact ⟨_, print_decimal_cap_ok BUF_LEN num (by omega) (by unfold BUF_LEN; omega), rfl,
    canonical_decimal_eq_toString num, rfl⟩

/-- Witness of C1 at `num = -42`, whose text is `-42`. -/
theorem print_decimal_canonical_witness :
    ∃ p, print_decimal (-42) = .ok p ∧ p.out = canonical_decimal (-42) ∧
      String.mk p.out = toString (-42 : Int) ∧ p.len = (p.out.length : Int) :=
  print_decimal_canonical (-42) (by decide) (by decide)

/-- C2: one iteration of the loop of `main`, from any state of the board,
returns, and the events it adds to the trace are exactly nine read
transactions, for the registers 15, 39, 38, 40, 41, 42, 43, 44, 45 in this
order; each is select, the byte `a ||| 0x80`, a discarded answer, the dummy
byte 0, the answer that becomes the register value, deselect. The locals are
built from the second answers only. -/
theorem loop_read_transactions (h : HW) :
    ∃ h1, loop_body h = .ok h1 ∧
      events_since h h1 =
        read_transaction 15 (rx_at h 0) (rx_at h 1) ++
        read_transaction 39 (rx_at h 2) (rx_at h 3) ++
        read_transaction 38 (rx_at h 4) (rx_at h 5) ++
        read_transaction 40 (rx_at h 6) (rx_at h 7) ++
        read_transaction 41 (rx_at h 8) (rx_at h 9) ++
        read_transaction 42 (rx_at h 10) (rx_at h 11) ++
        read_transaction 43 (rx_at h 12) (rx_at h 13) ++
        read_transaction 44 (rx_at h 14) (rx_at h 15) ++
        read_transaction 45 (rx_at h 16) (rx_at h 17) ∧
      (read_axes h).1 =
        { who := to_u8 (rx_at h 1),
          temp := to_u8 (rx_at h 5),
          gyr_x := to_i16 (Int.lor (to_i16 (rx_at h 7 : Int)) ((rx_at h 9 <<< 8 : Nat) : Int)),
          gyr_y := to_i16 (Int.lor (to_i16 (rx_at h 11 : Int)) ((rx_at h 13 <<< 8 : Nat) : Int)),
          gyr_z := to_i16 (Int.lor (to_i16 (rx_at h 15 : Int)) ((rx_at h 17 <<< 8 : Nat) : Int)) } ∧
      ∀ a d v, read_transaction a d v =
        [Event.cs_low, Event.send (a ||| 0x80), Event.read d, Event.send 0, Event.read v,
         Event.cs_high] := by
  obtain ⟨h1, hb, ht, _⟩ := loop_body_ok h
  refine ⟨h1, hb, ?_, read_axes_locals h, fun _ _ _ => rfl⟩
  exact events_since_append h h1 _ (ht.trans (read_axes_trace h))

/-- C3: the configuration phase of `main`, from any state of the board, adds
to the trace exactly two write transactions, `(0x20, 0x3F)` then
`(0x23, 0x10)`; each is select, the address with bit 7 clear, the value,
deselect, and the four answers are kept nowhere: apart from the trace, the
read counter and the console header the board state is unchanged, with
chip-select high. -/
theorem config_write_transactions (h : HW) :
    events_since h (main_config h) =
      write_transaction 0x20 0x3F (rx_at h 0) (rx_at h 1) ++
      write_transaction 0x23 0x10 (rx_at h 2) (rx_at h 3) ∧
    (0x20 &&& 0x80 = 0 ∧ 0x23 &&& 0x80 = 0) ∧
    main_config h =
      { cs := true, rx := h.rx, nread := h.nread + 4,
        trace := h.trace ++ (write_transaction 0x20 0x3F (rx_at h 0) (rx_at h 1) ++
          write_transaction 0x23 0x10 (rx_at h 2) (rx_at h 3)),
        console := h.console ++ [ConsoleCall.puts "X\tY\tZ\n"] } ∧
    ∀ a v d1 d2, write_transaction a v d1 d2 =
      [Event.cs_low, Event.send a, Event.read d1, Event.send v, Event.read d2,
       Event.cs_high] := by
  refine ⟨?_, ⟨by decide, by decide⟩, main_config_eq h, fun _ _ _ _ => rfl⟩
  exact events_since_append h _ _ (by rw [main_config_eq])

/-- C4: for every `n` and every sequence of answers from the sensor, `main`
reaches the end of its `n`-th loop iteration (`n = 0`: the end of the
configuration phase) with chip-select high. `spi_init` produces the single
event that sets chip-select high. The events after it are exactly the two
configuration writes followed by nine register reads per iteration; they pass
`cs_check` from the high level back to the high level (selects and deselects
alternate starting with a select, every send and read lies between a select
and the next deselect); and they parse into `2 + 9 * n` transactions, each one
frame that holds the address byte and its data byte together, so that no
deselect/select pair occurs inside a transaction. -/
theorem chip_select_invariant (n : Nat) (rx : Nat → Nat) :
    (spi_init (boot rx)).cs = true ∧ (spi_init (boot rx)).trace = [Event.cs_high] ∧
    ∃ h, main n rx = .ok h ∧ h.trace = Event.cs_high :: program_events rx n ∧
      cs_check true (program_events rx n) = some true ∧ h.cs = true ∧
      ∃ w1 w2 l, transactions (program_events rx n) = some (w1 :: w2 :: l) ∧
        (w1.addr = 0x20 ∧ w1.data = 0x3F) ∧ (w2.addr = 0x23 ∧ w2.data = 0x10) ∧
        l.length = 9 * n ∧ ∀ x ∈ l, x.addr &&& 0x80 = 0x80 ∧ x.data = 0 := by
  refine ⟨rfl, rfl, ?_⟩
  have hcfg := main_config_eq (spi_init (boot rx))
  obtain ⟨h1, hl, ht, hc⟩ := main_loop_events n 0 (main_config (spi_init (boot rx)))
    (by rw [hcfg]; rfl) (by rw [hcfg])
  have hrx : (main_config (spi_init (boot rx))).rx = rx := by rw [hcfg]; rfl
  have htr : (main_config (spi_init (boot rx))).trace = Event.cs_high :: config_events rx := by
    rw [hcfg]; rfl
  obtain ⟨l, hpl, hlen, hall⟩ := transactions_loop_events rx n 0
  refine ⟨h1, hl, ?_, ?_, hc, ?_⟩
  · rw [ht, htr, hrx]
    rfl
  · unfold program_events
    rw [cs_check_append _ _ _ _ (show cs_check true (config_events rx) = some true from rfl)]
    exact cs_check_loop_events rx n 0
  · refine ⟨{ addr := 0x20, addr_answer := to_u16 (rx 0), data := 0x3F,
                data_answer := to_u16 (rx 1) },
              { addr := 0x23, addr_answer := to_u16 (rx 2), data := 0x10,
                data_answer := to_u16 (rx 3) }, l, ?_, ⟨rfl, rfl⟩, ⟨rfl, rfl⟩, hlen, hall⟩
    unfold program_events config_events
    rw [List.append_assoc, transactions_write _ _ _ _ _ _
      (transactions_write _ _ _ _ _ _ hpl)]

/-- C5: in one loop iteration the two reads of axis `i` (X, Y, Z for
`i = 0, 1, 2`) are answered by the values at positions `7 + 4 * i` and
`9 + 4 * i` of the answer sequence. When these are bytes `low` and `high`, the
raw value stored in the axis variable is `low ||| (high <<< 8)` read as a
signed 16-bit integer. -/
theorem axis_assembly (h : HW) (i low high : Nat) (hi : i < 3)
    (hlow : low < 256) (hhigh : high < 256)
    (h1 : h.rx (h.nread + (7 + 4 * i)) = low) (h2 : h.rx (h.nread + (9 + 4 * i)) = high) :
    (read_axes h).1.axis i = assemble low high := by
  have e1 : to_u16 low = low := by unfold to_u16; omega
  have e2 : to_u16 high = high := by unfold to_u16; omega
  have e3 : to_i16 (low : Int) = (low : Int) := by unfold to_i16; omega
  rw [read_axes_locals]
  interval_cases i <;>
    simp only [Locals.axis, rx_at, Nat.mul_zero, Nat.mul_one, Nat.add_zero, Nat.reduceMul,
      Nat.reduceAdd] at h1 h2 ⊢ <;>
    rw [h1, h2, e1, e2, e3] <;> rfl

/-- Witness of C5 on the X axis with `low = 0x34` and `high = 0x12`, which
assemble to `0x1234`. -/
theorem axis_assembly_witness :
    (read_axes (boot (fun k => if k = 7 then 0x34 else if k = 9 then 0x12 else 0))).1.axis 0 =
      assemble 0x34 0x12 ∧ assemble 0x34 0x12 = 0x1234 :=
  ⟨axis_assembly (boot (fun k => if k = 7 then 0x34 else if k = 9 then 0x12 else 0)) 0 0x34 0x12
    (by decide) (by decide) (by decide) (by rfl) (by rfl), by rfl⟩

/-- C6 as stated fails on the Y axis (`i = 1`). On a board where only the
register read addressed to `40 + 1` is answered by 1 and every other answer is
0, the value read from address `40 + 1` is 1 and the value read from address
`40 + 1 + 1` is 0, yet the raw Y sample is not `assemble 1 0`. -/
theorem axis_addressing_counterexample :
    reg_value (events_since (boot (fun k => if k = 9 then 1 else 0))
        (read_axes (boot (fun k => if k = 9 then 1 else 0))).2) (40 + 1) = some 1 ∧
    reg_value (events_since (boot (fun k => if k = 9 then 1 else 0))
        (read_axes (boot (fun k => if k = 9 then 1 else 0))).2) (40 + 1 + 1) = some 0 ∧
    (read_axes (boot (fun k => if k = 9 then 1 else 0))).1.axis 1 ≠ assemble 1 0 := by
  refine ⟨by rfl, by rfl, by decide⟩

/-- C6 amended: for each axis `i` in `0, 1, 2` the loop body reads the low
byte from register address `40 + 2 * i` and the high byte from
`40 + 2 * i + 1`: the raw sample is assembled from the values the iteration
read at these two addresses, and both addresses go out on the bus with the
read flag `0x80`. -/
theorem axis_addressing (h : HW) (i lo hi : Nat) (hi3 : i < 3) (hlo : lo < 256)
    (h1 : reg_value (events_since h (read_axes h).2) (40 + 2 * i) = some lo)
    (h2 : reg_value (events_since h (read_axes h).2) (40 + 2 * i + 1) = some hi) :
    (read_axes h).1.axis i = assemble lo hi ∧
    Event.send ((40 + 2 * i) ||| 0x80) ∈ events_since h (read_axes h).2 ∧
    Event.send ((40 + 2 * i + 1) ||| 0x80) ∈ events_since h (read_axes h).2 := by
  unfold reg_value at h1 h2
  rw [read_axes_reg_reads] at h1 h2
  rw [read_axes_events, read_axes_locals]
  interval_cases i
  · simp at h1 h2
    subst h1 h2
    exact ⟨assemble_bytes _ _ hlo, by simp [read_transaction], by simp [read_transaction]⟩
  · simp at h1 h2
    subst h1 h2
    exact ⟨assemble_bytes _ _ hlo, by simp [read_transaction], by simp [read_transaction]⟩
  · simp at h1 h2
    subst h1 h2
    exact ⟨assemble_bytes _ _ hlo, by simp [read_transaction], by simp [read_transaction]⟩

/-- Witness of the amended C6 on the Y axis, with `0x34` at address 42 and
`0x12` at address 43. -/
theorem axis_addressing_witness :
    (read_axes (boot (fun k => if k = 11 then 0x34 else if k = 13 then 0x12 else 0))).1.axis 1 =
      assemble 0x34 0x12 ∧
    Event.send ((40 + 2 * 1) ||| 0x80) ∈
      events_since (boot (fun k => if k = 11 then 0x34 else if k = 13 then 0x12 else 0))
        (read_axes (boot (fun k => if k = 11 then 0x34 else if k = 13 then 0x12 else 0))).2 ∧
    Event.send ((40 + 2 * 1 + 1) ||| 0x80) ∈
      events_since (boot (fun k => if k = 11 then 0x34 else if k = 13 then 0x12 else 0))
        (read_axes (boot (fun k => if k = 11 then 0x34 else if k = 13 then 0x12 else 0))).2 :=
  axis_addressing (boot (fun k => if k = 11 then 0x34 else if k = 13 then 0x12 else 0)) 1 0x34 0x12
    (by decide) (by decide) (by rfl) (by rfl)

/-- C7: at `num = 2147483647` the tenth digit is stored into `buf[10]`, one
cell past the end of `char buf[10]` (cell 0 holds the terminator), so the call
has no defined result; with eleven cells the same routine sends the ten digits
`2147483647` and returns 10. -/
theorem print_decimal_int_max_overruns :
    print_decimal 2147483647 = .error (Fault.out_of_bounds 10) ∧
    BUF_LEN = 10 ∧
    print_decimal_cap 11 2147483647 =
      .ok { out := "2147483647".toList, len := 10,
            stores := [0, 1, 2, 3, 4, 5, 6, 7, 8, 9, 10] } := by
  refine ⟨by rfl, by rfl, by rfl⟩

/-- C8: at `num = -2147483648` the negation `0 - num` wraps back to
`-2147483648`, so `num % 10` is negative and the first character stored has
code 40 (48 - 8), which is no digit; the tenth store then leaves
`char buf[10]`. With eleven cells the text sent has the codes
45, 46, 47, 44, 41, 44, 40, 45, 42, 44, 40: the sign and ten characters below
the digit `0`. -/
theorem print_decimal_int_min_corrupts :
    wrap_int (0 - (-2147483648)) = -2147483648 ∧
    to_char ((wrap_int (0 - (-2147483648))).tmod 10 + ('0'.toNat : Int)) = Char.ofNat 40 ∧
    print_decimal (-2147483648) = .error (Fault.out_of_bounds 10) ∧
    print_decimal_cap 11 (-2147483648) =
      .ok { out := [45, 46, 47, 44, 41, 44, 40, 45, 42, 44, 40].map Char.ofNat, len := 11,
            stores := [0, 1, 2, 3, 4, 5, 6, 7, 8, 9, 10] } := by
  refine ⟨by rfl, by rfl, by rfl, by rfl⟩

/-- C9: on every raw 16-bit sample `r` the scaling of `main` gives what the
exact rational factor 7/400 with truncation toward zero gives, and this is 0
exactly when `|r| ≤ 57`; `58` is scaled to `1` and `-58` to `-1`. -/
theorem scale_truncates_small (r : Int) (h1 : -32768 ≤ r) (h2 : r ≤ 32767) :
    scale r = scale_exact r ∧ (scale_exact r = 0 ↔ (-57 ≤ r ∧ r ≤ 57)) ∧
      (scale_exact 58 = 1 ∧ scale_exact (-58) = -1) ∧ (scale 58 = 1 ∧ scale (-58) = -1) := by
  refine ⟨(scale_eq r h1 h2).1, ?_, ⟨by rfl, by rfl⟩, ⟨by rfl, by rfl⟩⟩
  unfold scale_exact
  rcases le_total 0 r with hr | hr
  · rw [Int.tdiv_eq_ediv (by omega) (by decide)]; omega
  · have : (r * 7).tdiv 400 = -((-r * 7) / 400) := by
      rw [← Int.tdiv_eq_ediv (by omega) (by decide), ← Int.neg_tdiv]
      congr 1; ring
    rw [this]; omega

/-- Witness of C9 at `r = 57`, the largest magnitude that still scales to 0. -/
theorem scale_truncates_small_witness :
    scale 57 = scale_exact 57 ∧ (scale_exact 57 = 0 ↔ ((-57 : Int) ≤ 57 ∧ (57 : Int) ≤ 57)) ∧
      (scale_exact 58 = 1 ∧ scale_exact (-58) = -1) ∧ (scale 58 = 1 ∧ scale (-58) = -1) :=
  scale_truncates_small 57 (by decide) (by decide)

/-- C10: for every raw 16-bit sample `r` the scaled value is
`trunc(r * 7/400)`, lies in `[-573, 573]` and so fits the 16-bit variable;
`print_decimal` of it returns, stores only into `buf[0..3]`, sends between one
and four characters and returns their number. Hence no loop iteration of
`main` faults. -/
theorem print_scaled_in_bounds (r : Int) (h1 : -32768 ≤ r) (h2 : r ≤ 32767) :
    (scale r = scale_exact r ∧ -573 ≤ scale r ∧ scale r ≤ 573) ∧
    (∃ p, print_decimal (scale r) = .ok p ∧ (∀ i ∈ p.stores, i ≤ 3) ∧
      p.out.length ≤ 4 ∧ p.len = (p.out.length : Int) ∧ 1 ≤ p.len ∧ p.len ≤ 4) ∧
    (∀ h : HW, ∃ h1, loop_body h = .ok h1) := by
  obtain ⟨he, hlo, hhi⟩ := scale_eq r h1 h2
  obtain ⟨p, hp, _, hlen, h4, h1', hst⟩ := print_scaled r h1 h2
  refine ⟨⟨he, by rw [he]; exact hlo, by rw [he]; exact hhi⟩,
    ⟨p, hp, hst, h4, hlen, by omega, by omega⟩, fun h => ?_⟩
  obtain ⟨h1, hb, _⟩ := loop_body_ok h
  exact ⟨h1, hb⟩

/-- Witness of C10 at the most negative sample, `r = -32768`. -/
theorem print_scaled_in_bounds_witness :
    (scale (-32768) = scale_exact (-32768) ∧ -573 ≤ scale (-32768) ∧ scale (-32768) ≤ 573) ∧
    (∃ p, print_decimal (scale (-32768)) = .ok p ∧ (∀ i ∈ p.stores, i ≤ 3) ∧
      p.out.length ≤ 4 ∧ p.len = (p.out.length : Int) ∧ 1 ≤ p.len ∧ p.len ≤ 4) ∧
    (∀ h : HW, ∃ h1, loop_body h = .ok h1) :=
  print_scaled_in_bounds (-32768) (by decide) (by decide)

end SpiMems
